import Mathlib

/-!
Verification development for the Notion MCP server's Markdown-to-blocks
conversion pipeline, its batch mutation engine, and the page rewrite
orchestrator.

The TypeScript sources are embedded shallowly:
* `src/utils/markdown/richText.ts` — inline-Markdown stripping and
  length-bounded text chunking (`stripInlineMarkdown`, `splitTextIntoChunks`,
  `createPlainTextRichText`);
* `src/utils/markdown/blockCreators.ts` — the block factory;
* `src/utils/markdown/markdownToBlocks.ts` — the token-tree walker
  (`markdownToBlocks`, `processToken`, `processListItem`, ...);
* `src/utils/blocks/index.ts` — `chunkBlocks`, `appendBlocksInBatches`;
* `src/tools/rewritePage.ts` — `rewritePage` and `deleteBlocksByIds`.

JavaScript strings are modelled as `List Char` where character-level work
happens; the module-global warnings buffer is modelled by explicit state
passing (functions take the warnings list in force before the call and
return the list in force after); remote API calls are modelled by oracle
functions returning `Except`, and the side effects of interest (which
chunks were submitted, which block ids were passed to the delete endpoint)
are returned as explicit traces.
-/

namespace NotionMcp

/-- Characters matched by the JavaScript regex class `\s` (ECMAScript
WhiteSpace plus LineTerminator). -/
def isJsWhitespace (c : Char) : Bool :=
  c = ' ' || c = '\t' || c = '\n' || c = '\r' || c = '\x0b' || c = '\x0c' ||
  c = ' ' || c = ' ' ||
  (' ' ≤ c && c ≤ ' ') ||
  c = ' ' || c = ' ' || c = ' ' || c = ' ' ||
  c = '　' || c = '﻿'

/-- Characters matched by the break-point regex `[\s.,;:!?]` used by
`splitTextIntoChunks` in `richText.ts`. -/
def isSplitChar (c : Char) : Bool :=
  isJsWhitespace c || c = '.' || c = ',' || c = ';' || c = ':' ||
  c = '!' || c = '?'

/-- Maximum characters per rich_text item (`MAX_RICH_TEXT_LENGTH` in
`richText.ts`). -/
def MAX_RICH_TEXT_LENGTH : Nat := 2000

/-- The regex test `/[\s.,;:!?]/.test(remaining[i])` from the split-point
search of `splitTextIntoChunks`: true only when index `i` is in range and
holds a break character. -/
def isBreakAt (remaining : List Char) (i : Nat) : Bool :=
  match remaining.get? i with
  | some c => isSplitChar c
  | none => false

/-- The split-point search of `splitTextIntoChunks` (`richText.ts`): scan
indices `maxLength-1` down to `Math.max(0, maxLength-100)` looking for a
break character; on a hit at index `i` the split index is `i+1`, otherwise
it stays `maxLength`. -/
def findSplitIndex (remaining : List Char) (maxLength : Nat) : Nat :=
  let searchStart := maxLength - 100
  let indices := ((List.range maxLength).drop searchStart).reverse
  match indices.find? (isBreakAt remaining) with
  | some i => i + 1
  | none => maxLength

/-- The `while (remaining.length > 0)` loop of `splitTextIntoChunks`
(`richText.ts`), with fuel standing in for the loop counter; fuel
`remaining.length` is enough whenever `1 ≤ maxLength`. -/
def splitLoop (maxLength : Nat) : Nat → List Char → List (List Char)
  | 0, _ => []
  | fuel + 1, remaining =>
    if remaining.isEmpty then []
    else if remaining.length ≤ maxLength then [remaining]
    else
      let splitIndex := findSplitIndex remaining maxLength
      remaining.take splitIndex ::
        splitLoop maxLength fuel (remaining.drop splitIndex)

/-- Embeds `splitTextIntoChunks` from `richText.ts`: splits text into chunks that
fit within the rich_text length limit, preferring to break at a whitespace
or punctuation character in the trailing 100-character window. -/
def splitTextIntoChunks (text : List Char) (maxLength : Nat) : List (List Char) :=
  if text.length ≤ maxLength then [text]
  else splitLoop maxLength text.length text

/-- Predicate `startsWithChars pat s`: holds when `pat` is an initial segment of `s`. -/
def startsWithChars : List Char → List Char → Bool
  | [], _ => true
  | _ :: _, [] => false
  | p :: ps, c :: cs => p = c && startsWithChars ps cs

/-- Characters matched by the JavaScript regex `.` (anything but a line
terminator). -/
def isDotChar (c : Char) : Bool :=
  !(c = '\n' || c = '\r' || c = ' ' || c = ' ')

/-- One match attempt of `/!\[([^\]]*)\]\([^)]+\)/` at the head of the
input: image syntax collapses to its alt text. Returns the replacement and
the input after the matched region. -/
def matchImageSyntax (s : List Char) : Option (List Char × List Char) :=
  match s with
  | '!' :: '[' :: rest =>
    let alt := rest.takeWhile (fun c => c ≠ ']')
    match rest.drop alt.length with
    | ']' :: '(' :: rest2 =>
      let url := rest2.takeWhile (fun c => c ≠ ')')
      if url.isEmpty then none
      else
        match rest2.drop url.length with
        | ')' :: rest3 => some (alt, rest3)
        | _ => none
    | _ => none
  | _ => none

/-- One match attempt of `/\[([^\]]+)\]\([^)]+\)/` at the head of the
input: link syntax collapses to its text. -/
def matchLinkSyntax (s : List Char) : Option (List Char × List Char) :=
  match s with
  | '[' :: rest =>
    let txt := rest.takeWhile (fun c => c ≠ ']')
    if txt.isEmpty then none
    else
      match rest.drop txt.length with
      | ']' :: '(' :: rest2 =>
        let url := rest2.takeWhile (fun c => c ≠ ')')
        if url.isEmpty then none
        else
          match rest2.drop url.length with
          | ')' :: rest3 => some (txt, rest3)
          | _ => none
      | _ => none
  | _ => none

/-- The lazy body search of `(.+?)` followed by a closing delimiter: the
shortest non-empty run of `.`-matching characters after which the closing
delimiter follows. Returns the body and the input after the closing
delimiter. -/
def lazyBody (delim : List Char) : List Char → Option (List Char × List Char)
  | [] => none
  | c :: rest =>
    if !isDotChar c then none
    else if startsWithChars delim rest then some ([c], rest.drop delim.length)
    else
      match lazyBody delim rest with
      | some (body, after) => some (c :: body, after)
      | none => none

/-- One match attempt of `(d)(.+?)\1` for a single delimiter `d` at the
head of the input. -/
def matchDelimPair (delim : List Char) (s : List Char) : Option (List Char × List Char) :=
  if startsWithChars delim s then lazyBody delim (s.drop delim.length)
  else none

/-- One match attempt of `(d₁|d₂|…)(.+?)\1`: the alternatives are tried in
order, as the JavaScript regex engine does. -/
def matchEmphasis (delims : List (List Char)) (s : List Char) : Option (List Char × List Char) :=
  match delims with
  | [] => none
  | d :: ds =>
    match matchDelimPair d s with
    | some r => some r
    | none => matchEmphasis ds s

/-- One match attempt of ``/`([^`]+)`/`` at the head of the input: inline
code collapses to its body. -/
def matchInlineCode (s : List Char) : Option (List Char × List Char) :=
  match s with
  | '`' :: rest =>
    let body := rest.takeWhile (fun c => c ≠ '`')
    if body.isEmpty then none
    else
      match rest.drop body.length with
      | '`' :: rest2 => some (body, rest2)
      | _ => none
  | _ => none

/-- One match attempt of `/\\([*_`~\[\]])/` at the head of the input: an
escaped punctuation character collapses to the character itself. -/
def matchEscapedChar (s : List Char) : Option (List Char × List Char) :=
  match s with
  | '\\' :: c :: rest =>
    if c = '*' || c = '_' || c = '`' || c = '~' || c = '[' || c = ']' then
      some ([c], rest)
    else none
  | _ => none

/-- The semantics of `String.prototype.replace` with a global regex: walk
the input left to right, at each position try the matcher; on a match emit
the replacement (which is not rescanned) and continue after the matched
region, otherwise emit the character and advance by one. Fuel bounds the
walk; `s.length` is enough because every matcher above consumes at least
one character. -/
def replaceGlobal (m : List Char → Option (List Char × List Char)) :
    Nat → List Char → List Char
  | 0, s => s
  | fuel + 1, s =>
    match s with
    | [] => []
    | c :: rest =>
      match m s with
      | some (rep, after) => rep ++ replaceGlobal m fuel after
      | none => c :: replaceGlobal m fuel rest

/-- Apply one global-replace pass over the whole input. -/
def applyPass (m : List Char → Option (List Char × List Char)) (s : List Char) : List Char :=
  replaceGlobal m s.length s

/-- Embeds `stripInlineMarkdown` from `richText.ts`: the eight `replace` passes in
source order (images, links, combined bold+italic, bold, italic,
strikethrough, inline code, escaped punctuation). The `if (!text)` guard of
the source collapses to the empty-input case here, the `null`/`undefined`
inputs being unrepresentable for a Lean string. -/
def stripInlineMarkdown (text : List Char) : List Char :=
  if text.isEmpty then []
  else
    let s1 := applyPass matchImageSyntax text
    let s2 := applyPass matchLinkSyntax s1
    let s3 := applyPass (matchEmphasis [['*', '*', '*'], ['_', '_', '_']]) s2
    let s4 := applyPass (matchEmphasis [['*', '*'], ['_', '_']]) s3
    let s5 := applyPass (matchEmphasis [['*'], ['_']]) s4
    let s6 := applyPass (matchEmphasis [['~', '~']]) s5
    let s7 := applyPass matchInlineCode s6
    applyPass matchEscapedChar s7

/-- One rich_text item; only the plain-text shape `{type: "text",
text: {content}}` is ever produced by the conversion paths under study, so
the embedding keeps just the content. -/
structure RichTextItem where
  content : String
  deriving Repr, DecidableEq

/-- Embeds `createPlainTextRichText` from `richText.ts`: normalize, guarantee at
least one (possibly empty) run, otherwise chunk to the 2000-character
limit. -/
def createPlainTextRichText (text : String) : List RichTextItem :=
  let plainText := stripInlineMarkdown text.data
  if plainText.length = 0 then [⟨""⟩]
  else (splitTextIntoChunks plainText MAX_RICH_TEXT_LENGTH).map (fun c => ⟨c.asString⟩)

/-- The blocks produced by the conversion paths under study, as a tagged
variant record (`NotionBlock` in `types.ts` is an open record discriminated
by its `type` field; the payloads here are exactly the ones the block
factory in `blockCreators.ts` builds). List-item children are `none` when
the source omits the `children` key and `some` when it is present. -/
inductive NotionBlock where
  | paragraph (richText : List RichTextItem)
  | heading1 (richText : List RichTextItem)
  | heading2 (richText : List RichTextItem)
  | heading3 (richText : List RichTextItem)
  | bulletedListItem (richText : List RichTextItem)
      (children : Option (List NotionBlock))
  | numberedListItem (richText : List RichTextItem)
      (children : Option (List NotionBlock))
  | code (richText : List RichTextItem) (language : String)
  | quote (richText : List RichTextItem)
  | divider
  | toDo (richText : List RichTextItem) (checked : Bool)
  | image (url : String) (caption : Option (List RichTextItem))
  deriving Repr

/-- Embeds `createParagraphBlock` from `blockCreators.ts`. -/
def createParagraphBlock (text : String) : NotionBlock :=
  .paragraph (createPlainTextRichText text)

/-- Embeds `createHeading1Block` from `blockCreators.ts`. -/
def createHeading1Block (text : String) : NotionBlock :=
  .heading1 (createPlainTextRichText text)

/-- Embeds `createHeading2Block` from `blockCreators.ts`. -/
def createHeading2Block (text : String) : NotionBlock :=
  .heading2 (createPlainTextRichText text)

/-- Embeds `createHeading3Block` from `blockCreators.ts`. -/
def createHeading3Block (text : String) : NotionBlock :=
  .heading3 (createPlainTextRichText text)

/-- Embeds `createBulletedListItemBlock` from `blockCreators.ts`: the children
field is attached only when a non-empty children array is supplied. -/
def createBulletedListItemBlock (text : String)
    (children : Option (List NotionBlock)) : NotionBlock :=
  match children with
  | some cs => if cs.isEmpty then .bulletedListItem (createPlainTextRichText text) none
               else .bulletedListItem (createPlainTextRichText text) (some cs)
  | none => .bulletedListItem (createPlainTextRichText text) none

/-- Embeds `createNumberedListItemBlock` from `blockCreators.ts`. -/
def createNumberedListItemBlock (text : String)
    (children : Option (List NotionBlock)) : NotionBlock :=
  match children with
  | some cs => if cs.isEmpty then .numberedListItem (createPlainTextRichText text) none
               else .numberedListItem (createPlainTextRichText text) (some cs)
  | none => .numberedListItem (createPlainTextRichText text) none

/-- Lowercasing as performed by `String.prototype.toLowerCase` on the
language tags of interest. -/
def jsToLower (s : String) : String :=
  (s.data.map Char.toLower).asString

/-- The `languageMap` alias table from `createCodeBlock` in
`blockCreators.ts`. -/
def languageMap (s : String) : Option String :=
  match s with
  | "js" => some "javascript"
  | "ts" => some "typescript"
  | "py" => some "python"
  | "rb" => some "ruby"
  | "sh" => some "shell"
  | "bash" => some "shell"
  | "zsh" => some "shell"
  | "yml" => some "yaml"
  | "md" => some "markdown"
  | "" => some "plain text"
  | _ => none

/-- Embeds `createCodeBlock` from `blockCreators.ts`: the content is wrapped
verbatim in a single rich_text run (never passed through
`createPlainTextRichText`) and the language tag resolves via
`languageMap[norm] || norm || "plain text"`. -/
def createCodeBlock (code : String) (language : Option String) : NotionBlock :=
  let normalizedLanguage :=
    match language with
    | some l => jsToLower l
    | none => ""
  let notionLanguage :=
    match languageMap normalizedLanguage with
    | some l => l
    | none => if normalizedLanguage = "" then "plain text" else normalizedLanguage
  .code [⟨code⟩] notionLanguage

/-- Embeds `createQuoteBlock` from `blockCreators.ts`. -/
def createQuoteBlock (text : String) : NotionBlock :=
  .quote (createPlainTextRichText text)

/-- Embeds `createDividerBlock` from `blockCreators.ts`. -/
def createDividerBlock : NotionBlock := .divider

/-- Embeds `createToDoBlock` from `blockCreators.ts`: note the constructor takes
no children argument, so a to_do block never carries children. -/
def createToDoBlock (text : String) (checked : Bool) : NotionBlock :=
  .toDo (createPlainTextRichText text) checked

/-- Models the external WHATWG `new URL(url)` constructor's success test
used by `createImageBlock`: a well-formed absolute URL starts with an
alphabetic scheme followed by a colon. Only its success/failure signal is
relied upon. -/
def urlWellFormed (url : String) : Bool :=
  match url.data with
  | c :: rest =>
    c.isAlpha &&
      (match rest.dropWhile (fun d =>
          d.isAlpha || d.isDigit || d = '+' || d = '-' || d = '.') with
       | ':' :: _ => true
       | _ => false)
  | [] => false

/-- JavaScript `a || b` on strings: `a` when non-empty, else `b`. -/
def strOrElse (a : Option String) (b : String) : String :=
  match a with
  | some s => if s = "" then b else s
  | none => b

/-- Embeds `createImageBlock` from `blockCreators.ts`: a malformed URL degrades to
a fallback paragraph `"[Image: <caption-or-url>]"`; the caption field is
attached only when the caption is a non-empty string. -/
def createImageBlock (url : String) (caption : Option String) : NotionBlock :=
  if urlWellFormed url then
    .image url
      (match caption with
       | some cap => if cap = "" then none else some (createPlainTextRichText cap)
       | none => none)
  else
    createParagraphBlock ("[Image: " ++ strOrElse caption url ++ "]")

/-- Embeds `String.prototype.trim` of JavaScript: strip JavaScript whitespace from both ends. -/
def jsTrim (s : String) : String :=
  ((s.data.dropWhile isJsWhitespace).reverse.dropWhile isJsWhitespace).reverse.asString

/-- Maximum nesting depth supported by the remote API
(`MAX_NESTING_DEPTH` in `markdownToBlocks.ts`). -/
def MAX_NESTING_DEPTH : Nat := 3

/-- The warning text pushed by `processListItem` when a nested list at
`depth + 1` would exceed the depth cap. -/
def depthExceededWarning (depth : Nat) : String :=
  "Nested list at depth " ++ toString (depth + 1) ++ " exceeds maximum depth of " ++
    toString MAX_NESTING_DEPTH ++ ". Flattening to siblings."

/-- Inline sub-tokens of a paragraph as `processParagraph` consumes them:
an image token (with `href`, alt `text` and optional `title`) or any other
inline token, of which only the `raw`/`text` fields are read. -/
inductive InlineTok where
  | image (href : String) (text : String) (title : Option String)
  | inline (raw : Option String) (text : Option String)
  deriving Repr

mutual

/-- The token shapes of the external `marked` lexer that
`markdownToBlocks.ts` consumes: kind, heading depth, paragraph inline
sub-tokens, list items, code text and language, blockquote sub-tokens,
raw HTML, plain text runs, and a catch-all for every other token kind
(carrying its kind string for the unknown-token warning). -/
inductive Token where
  | heading (depth : Nat) (text : String)
  | paragraph (text : String) (tokens : Option (List InlineTok))
  | code (text : String) (lang : Option String)
  | blockquote (text : String) (tokens : Option (List Token))
  | list (ordered : Bool) (items : List ListItem)
  | text (text : String)
  | hr
  | space
  | html (text : String)
  | other (kind : String)

/-- A `marked` list item: task flag, checked flag (absent on non-task
items), raw text, and sub-tokens. -/
inductive ListItem where
  | mk (task : Bool) (checked : Option Bool) (text : String)
      (tokens : Option (List Token))

end

/-- The text/nested-list extraction loop of `processListItem`
(`markdownToBlocks.ts`): walk the item's sub-tokens accumulating the text
of `text`/`paragraph` tokens and remembering the last `list` token seen. -/
def extractGo : String → Option (Bool × List ListItem) → List Token →
    String × Option (Bool × List ListItem)
  | txt, nested, [] => (txt, nested)
  | txt, _, Token.list ordered items :: rest => extractGo txt (some (ordered, items)) rest
  | txt, nested, Token.text s :: rest => extractGo (txt ++ s) nested rest
  | txt, nested, Token.paragraph s _ :: rest => extractGo (txt ++ s) nested rest
  | txt, nested, Token.heading _ _ :: rest => extractGo txt nested rest
  | txt, nested, Token.code _ _ :: rest => extractGo txt nested rest
  | txt, nested, Token.blockquote _ _ :: rest => extractGo txt nested rest
  | txt, nested, Token.hr :: rest => extractGo txt nested rest
  | txt, nested, Token.space :: rest => extractGo txt nested rest
  | txt, nested, Token.html _ :: rest => extractGo txt nested rest
  | txt, nested, Token.other _ :: rest => extractGo txt nested rest

/-- Termination bound for the tree walk: a nested list found by
`extractGo` is structurally smaller than the token list it was found in. -/
theorem extractGo_nested_sizeOf (ts : List Token) :
    ∀ (txt : String) (acc : Option (Bool × List ListItem)) (nOrd : Bool)
      (nItems : List ListItem),
      (extractGo txt acc ts).2 = some (nOrd, nItems) →
      acc = some (nOrd, nItems) ∨ sizeOf nItems < sizeOf ts := by
  induction ts with
  | nil =>
    intro txt acc nOrd nItems h
    left
    simpa [extractGo] using h
  | cons t rest ih =>
    intro txt acc nOrd nItems h
    cases t with
    | list ordered items =>
      rw [extractGo] at h
      rcases ih _ _ _ _ h with h' | h'
      · right
        cases h'
        simp only [List.cons.sizeOf_spec, Token.list.sizeOf_spec]
        omega
      · right
        simp only [List.cons.sizeOf_spec]
        omega
    | text s =>
      rw [extractGo] at h
      rcases ih _ _ _ _ h with h' | h'
      · exact Or.inl h'
      · right; simp only [List.cons.sizeOf_spec]; omega
    | paragraph s toks =>
      rw [extractGo] at h
      rcases ih _ _ _ _ h with h' | h'
      · exact Or.inl h'
      · right; simp only [List.cons.sizeOf_spec]; omega
    | heading depth text =>
      rw [extractGo] at h
      rcases ih _ _ _ _ h with h' | h'
      · exact Or.inl h'
      · right; simp only [List.cons.sizeOf_spec]; omega
    | code text lang =>
      rw [extractGo] at h
      rcases ih _ _ _ _ h with h' | h'
      · exact Or.inl h'
      · right; simp only [List.cons.sizeOf_spec]; omega
    | blockquote text toks =>
      rw [extractGo] at h
      rcases ih _ _ _ _ h with h' | h'
      · exact Or.inl h'
      · right; simp only [List.cons.sizeOf_spec]; omega
    | hr =>
      rw [extractGo] at h
      rcases ih _ _ _ _ h with h' | h'
      · exact Or.inl h'
      · right; simp only [List.cons.sizeOf_spec]; omega
    | space =>
      rw [extractGo] at h
      rcases ih _ _ _ _ h with h' | h'
      · exact Or.inl h'
      · right; simp only [List.cons.sizeOf_spec]; omega
    | html text =>
      rw [extractGo] at h
      rcases ih _ _ _ _ h with h' | h'
      · exact Or.inl h'
      · right; simp only [List.cons.sizeOf_spec]; omega
    | other kind =>
      rw [extractGo] at h
      rcases ih _ _ _ _ h with h' | h'
      · exact Or.inl h'
      · right; simp only [List.cons.sizeOf_spec]; omega

/-- Embeds `processHeading` from `markdownToBlocks.ts`: depth 1 and 2 map to
heading_1/heading_2; depth 3 and anything else map to heading_3. -/
def processHeading (depth : Nat) (text : String) : NotionBlock :=
  match depth with
  | 1 => createHeading1Block text
  | 2 => createHeading2Block text
  | _ => createHeading3Block text

/-- The caption expression `imgToken.text || imgToken.title || undefined`
from `processParagraph`. -/
def captionOfImageToken (text : String) (title : Option String) : Option String :=
  if text = "" then
    match title with
    | some t => if t = "" then none else some t
    | none => none
  else some text

/-- The accumulated-text expression `tok.raw || tok.text || ""` from
`processParagraph`. -/
def rawOrText (raw : Option String) (text : Option String) : String :=
  strOrElse raw (strOrElse text "")

/-- Embeds `textParts.join("")`, the joining of accumulated text parts. -/
def joinParts (parts : List String) : String :=
  parts.foldl (fun a b => a ++ b) ""

/-- The text an inline token contributes to the `textParts` accumulator of
`processParagraph`: `tok.raw || tok.text || ""` for a non-image token.
Image tokens never reach the accumulator (they trigger a flush instead);
the `""` here is a placeholder used only to state theorems about
image-free paragraphs. -/
def inlineRawText : InlineTok → String
  | .inline raw text => rawOrText raw text
  | .image _ _ _ => ""

/-- The inline-token loop of `processParagraph` (`markdownToBlocks.ts`):
accumulated text is flushed (unjoined, untrimmed) as a paragraph before
each image; the final flush trims and drops a whitespace-only tail. -/
def paraGo : List InlineTok → List String → List NotionBlock
  | [], parts =>
    let text := jsTrim (joinParts parts)
    if text = "" then [] else [createParagraphBlock text]
  | .image href itext ititle :: rest, parts =>
    (if parts.isEmpty then [] else [createParagraphBlock (joinParts parts)]) ++
      (createImageBlock href (captionOfImageToken itext ititle) :: paraGo rest [])
  | .inline raw text :: rest, parts =>
    paraGo rest (parts ++ [rawOrText raw text])

/-- Embeds `processParagraph` from `markdownToBlocks.ts`: splits a paragraph
around embedded images; if nothing was produced, falls back to one
paragraph block holding the token's raw text. -/
def processParagraph (text : String) (tokens : Option (List InlineTok)) :
    List NotionBlock :=
  let blocks :=
    match tokens with
    | some toks => paraGo toks []
    | none => if jsTrim text = "" then [] else [createParagraphBlock text]
  if blocks.isEmpty then [createParagraphBlock text] else blocks

/-- Embeds `processCodeBlock` from `markdownToBlocks.ts`. -/
def processCodeBlock (text : String) (lang : Option String) : NotionBlock :=
  createCodeBlock text lang

/-- The paragraph-to-quote rewrite applied to blocks produced inside a
blockquote: a paragraph becomes a quote holding its first text run's
content; every other block passes through. -/
def requoteBlock (b : NotionBlock) : NotionBlock :=
  match b with
  | .paragraph rt => createQuoteBlock ((rt.head?.map RichTextItem.content).getD "")
  | b => b

/-- The list-item block choice `ordered ? createNumberedListItemBlock :
createBulletedListItemBlock` from `processListItem`. -/
def createListItemBlock (ordered : Bool) (text : String)
    (children : Option (List NotionBlock)) : NotionBlock :=
  if ordered then createNumberedListItemBlock text children
  else createBulletedListItemBlock text children

mutual

/-- Embeds `processToken` from `markdownToBlocks.ts`: dispatch on the token kind.
Besides the produced blocks, the warnings appended to the module-global
buffer during the call are returned explicitly. -/
def processToken (t : Token) : List NotionBlock × List String :=
  match t with
  | .heading depth text => ([processHeading depth text], [])
  | .paragraph text toks => (processParagraph text toks, [])
  | .code text lang => ([processCodeBlock text lang], [])
  | .blockquote text toks => processBlockquote text toks
  | .list ordered items => processListItems items ordered 1
  | .hr => ([createDividerBlock], [])
  | .space => ([], [])
  | .html text =>
    (if jsTrim text = "" then [] else [createParagraphBlock (jsTrim text)], [])
  | .text _ => ([], ["Unknown token type: text"])
  | .other kind => ([], ["Unknown token type: " ++ kind])
termination_by sizeOf t

/-- The top-level token loop of `markdownToBlocks`. -/
def processTokens (ts : List Token) : List NotionBlock × List String :=
  match ts with
  | [] => ([], [])
  | t :: rest =>
    let (bs, ws) := processToken t
    let (bs', ws') := processTokens rest
    (bs ++ bs', ws ++ ws')
termination_by sizeOf ts

/-- Embeds `processBlockquote` from `markdownToBlocks.ts`. -/
def processBlockquote (text : String) (tokens : Option (List Token)) :
    List NotionBlock × List String :=
  match tokens with
  | some inner => processBlockquoteInner inner
  | none => ([createQuoteBlock text], [])
termination_by sizeOf tokens

/-- The inner-token loop of `processBlockquote`: a paragraph sub-token
becomes a quote directly; every other sub-token is processed recursively
and any resulting paragraph block is converted to a quote. -/
def processBlockquoteInner (ts : List Token) : List NotionBlock × List String :=
  match ts with
  | [] => ([], [])
  | .paragraph ptext _ :: rest =>
    let (bs, ws) := processBlockquoteInner rest
    (createQuoteBlock ptext :: bs, ws)
  | t :: rest =>
    let (pbs, ws1) := processToken t
    let (bs, ws2) := processBlockquoteInner rest
    (pbs.map requoteBlock ++ bs, ws1 ++ ws2)
termination_by sizeOf ts

/-- Embeds `processListItems` from `markdownToBlocks.ts`: each item's block is
followed immediately by any items flattened out of it. -/
def processListItems (items : List ListItem) (ordered : Bool) (depth : Nat) :
    List NotionBlock × List String :=
  match items with
  | [] => ([], [])
  | item :: rest =>
    let (block, flattenedItems, ws) := processListItem item ordered depth
    let (restBlocks, restWs) := processListItems rest ordered depth
    (block :: flattenedItems ++ restBlocks, ws ++ restWs)
termination_by sizeOf items

/-- Embeds `processListItem` from `markdownToBlocks.ts`: a task item immediately
becomes a to_do block; otherwise text and the last nested-list sub-token
are extracted, and the nested list is attached as children when
`depth < MAX_NESTING_DEPTH` or flattened to siblings with a warning
otherwise. -/
def processListItem (item : ListItem) (ordered : Bool) (depth : Nat) :
    NotionBlock × List NotionBlock × List String :=
  match item with
  | .mk task checked text tokens? =>
    if task then
      (createToDoBlock text (checked.getD false), [], [])
    else
      match tokens? with
      | some ts =>
        match hx : extractGo "" none ts with
        | (textContent, some (nOrd, nItems)) =>
          if depth < MAX_NESTING_DEPTH then
            let (children, ws) := processListItems nItems nOrd (depth + 1)
            (createListItemBlock ordered textContent (some children), [], ws)
          else
            let (flat, ws) := processListItems nItems nOrd depth
            (createListItemBlock ordered textContent none, flat,
              depthExceededWarning depth :: ws)
        | (textContent, none) =>
          (createListItemBlock ordered textContent none, [], [])
      | none =>
        (createListItemBlock ordered text none, [], [])
termination_by sizeOf item
decreasing_by
all_goals
  rcases extractGo_nested_sizeOf inner "" none nOrd nItems (by rw [hx]) with h' | h'
  · exact absurd h' (by simp)
  · simp only [ListItem.mk.sizeOf_spec, Option.some.sizeOf_spec]
    omega

end

/-- Embeds `markdownToBlocks` from `markdownToBlocks.ts`, with the module-global
warnings buffer passed explicitly: `warnings` is the buffer content in
force before the call, the second component of the result is the buffer
content after the call. Blank or whitespace-only input returns early —
before the `conversionWarnings = []` reset — so the buffer is unchanged on
that path; otherwise the buffer is reset and holds exactly the warnings of
this walk. `tokens` stands for `Lexer.lex(markdown)`, the token tree the
external tokenizer produces for the raw text. -/
def markdownToBlocks (markdown : String) (tokens : List Token)
    (warnings : List String) : List NotionBlock × List String :=
  if jsTrim markdown = "" then ([], warnings)
  else processTokens tokens

/-- Embeds `getConversionWarnings` from `markdownToBlocks.ts`: returns a copy of
the buffer in force. -/
def getConversionWarnings (warnings : List String) : List String :=
  warnings

/-- Embeds `NOTION_BLOCK_LIMIT` from `utils/blocks/index.ts`. -/
def NOTION_BLOCK_LIMIT : Nat := 100

/-- The slicing loop of `chunkBlocks` (`for (let i = 0; i < blocks.length;
i += chunkSize)`), with fuel standing in for the loop counter; fuel
`blocks.length` is enough whenever `1 ≤ chunkSize`. -/
def chunkGo (chunkSize : Nat) : Nat → List α → List (List α)
  | 0, _ => []
  | fuel + 1, l =>
    if l.isEmpty then []
    else l.take chunkSize :: chunkGo chunkSize fuel (l.drop chunkSize)

/-- Embeds `chunkBlocks` from `utils/blocks/index.ts`: split a list into chunks of
at most `chunkSize` elements, preserving order. -/
def chunkBlocks (blocks : List α) (chunkSize : Nat) : List (List α) :=
  if blocks.isEmpty then []
  else chunkGo chunkSize blocks.length blocks

/-- Embeds `BatchAppendResult` from `utils/blocks/index.ts`. `results` holds the
remote responses of successful chunks, `errors` the `{batchIndex, error}`
records of failed ones. -/
structure BatchAppendResult where
  success : Bool
  totalBlocks : Nat
  batchCount : Nat
  successfulBatches : Nat
  results : List String
  errors : List (Nat × String)
  deriving Repr, DecidableEq

/-- The sequential chunk loop of `appendBlocksInBatches`: `api` models the
remote `notion.blocks.children.append` call (indexed here by the batch
index so an oracle can make individual calls fail); each chunk is
submitted unconditionally, a failure only records `(batchIndex, error)`.
Returns `(results, errors, successfulBatches)` together with the trace of
batch indices actually submitted to the remote API. -/
def appendBatchesGo (api : Nat → List α → Except String String) (i : Nat) :
    List (List α) → (List String × List (Nat × String) × Nat) × List Nat
  | [] => (([], [], 0), [])
  | chunk :: rest =>
    let ((results, errors, succ), submitted) := appendBatchesGo api (i + 1) rest
    match api i chunk with
    | .ok r => ((r :: results, errors, succ + 1), i :: submitted)
    | .error e => ((results, (i, e) :: errors, succ), i :: submitted)

/-- Embeds `appendBlocksInBatches` from `utils/blocks/index.ts`: empty input short-
circuits to an all-zero success; otherwise the blocks are chunked to the
100-block limit and submitted sequentially, aggregating partial results.
The second component is the trace of submitted batch indices. -/
def appendBlocksInBatches (api : Nat → List α → Except String String)
    (blocks : List α) : BatchAppendResult × List Nat :=
  if blocks.isEmpty then
    ({ success := true, totalBlocks := 0, batchCount := 0, successfulBatches := 0,
       results := [], errors := [] }, [])
  else
    let chunks := chunkBlocks blocks NOTION_BLOCK_LIMIT
    let ((results, errors, succ), submitted) := appendBatchesGo api 0 chunks
    ({ success := errors.isEmpty, totalBlocks := blocks.length,
       batchCount := chunks.length, successfulBatches := succ,
       results := results, errors := errors }, submitted)

/-- The remote API surface `rewritePage` depends on: the batched append
call, the (pagination-collapsed) child-id listing behind
`fetchAllChildBlockIds`, and the per-block delete call. -/
structure RemoteApi where
  append : Nat → List NotionBlock → Except String String
  childIds : String → List String
  delete : String → Except String Unit

/-- Embeds `deleteBlocksByIds` from `rewritePage.ts`: delete each id sequentially,
counting successes and recording `"id: error"` strings for failures, never
aborting. The second component is the trace of ids passed to the remote
delete call. -/
def deleteBlocksByIds (api : RemoteApi) : List String → (Nat × List String) × List String
  | [] => ((0, []), [])
  | blockId :: rest =>
    let ((deletedCount, errors), trace) := deleteBlocksByIds api rest
    match api.delete blockId with
    | .ok _ => ((deletedCount + 1, errors), blockId :: trace)
    | .error e => ((deletedCount, (blockId ++ ": " ++ e) :: errors), blockId :: trace)

/-- The outcome of `rewritePage`, keeping the fields the response text is
built from. -/
structure RewriteResult where
  isError : Bool
  addedBlocks : Nat
  batchCount : Nat
  deletedCount : Nat
  deleteErrors : List String
  warnings : List String
  deriving Repr

/-- Embeds `rewritePage` from `rewritePage.ts`: convert, fail fast on an empty
conversion, capture existing child ids only when `validateBeforeDelete`,
append first, stop with an error (and no deletion) unless every batch
succeeded, and only then delete the captured ids best-effort. The second
component is the trace of ids passed to the remote delete call during the
whole invocation. -/
def rewritePage (api : RemoteApi) (pageId : String) (markdown : String)
    (tokens : List Token) (validateBeforeDelete : Bool)
    (warnings₀ : List String) : RewriteResult × List String :=
  let (blocks, wstate) := markdownToBlocks markdown tokens warnings₀
  let warnings := getConversionWarnings wstate
  if blocks.isEmpty then
    ({ isError := true, addedBlocks := 0, batchCount := 0, deletedCount := 0,
       deleteErrors := [], warnings := warnings }, [])
  else
    let existingBlockIds := if validateBeforeDelete then api.childIds pageId else []
    let (batchResult, _) := appendBlocksInBatches api.append blocks
    if !batchResult.success then
      ({ isError := true, addedBlocks := 0, batchCount := batchResult.batchCount,
         deletedCount := 0, deleteErrors := [], warnings := warnings }, [])
    else
      let ((deletedCount, deleteErrors), deleteTrace) :=
        if existingBlockIds.isEmpty then ((0, []), [])
        else deleteBlocksByIds api existingBlockIds
      ({ isError := false, addedBlocks := batchResult.totalBlocks,
         batchCount := batchResult.batchCount, deletedCount := deletedCount,
         deleteErrors := deleteErrors, warnings := warnings }, deleteTrace)

/-- Whether an inline token is an image token (the discriminant
`inlineToken.type === "image"` tested by `processParagraph`). -/
def InlineTok.isImage : InlineTok → Bool
  | .image _ _ _ => true
  | .inline _ _ => false

/-- The `language` payload of a code block, `none` for other kinds. -/
def blockLanguage : NotionBlock → Option String
  | .code _ l => some l
  | _ => none

/-- The rich_text payload of a code block, `none` for other kinds. -/
def codeRichText : NotionBlock → Option (List RichTextItem)
  | .code rt _ => some rt
  | _ => none

/-! ## Theorems -/

lemma chunkGo_flatten (chunkSize : Nat) (hcs : 1 ≤ chunkSize) :
    ∀ fuel (l : List α), l.length ≤ fuel → (chunkGo chunkSize fuel l).flatten = l := by
  intro fuel
  induction fuel with
  | zero =>
    intro l hlen
    have : l = [] := List.eq_nil_of_length_eq_zero (Nat.le_zero.mp hlen)
    simp [this, chunkGo]
  | succ n ih =>
    intro l hlen
    by_cases hempty : l.isEmpty
    · have : l = [] := List.isEmpty_iff.mp hempty
      simp [chunkGo, hempty, this]
    · have hne : l ≠ [] := by simpa [List.isEmpty_iff] using hempty
      have hops : 1 ≤ l.length := by
        cases l with
        | nil => simp at hne
        | cons a as => simp
      have hfuel : (l.drop chunkSize).length ≤ n := by
        simp only [List.length_drop]
        omega
      have hrec := ih _ hfuel
      simp [chunkGo, hempty, hrec, List.take_append_drop]

lemma chunkGo_length_hundred :
    ∀ fuel (l : List α), l.length ≤ fuel →
      (chunkGo 100 fuel l).length = (l.length + 99) / 100 := by
  intro fuel
  induction fuel with
  | zero =>
    intro l hlen
    have : l = [] := List.eq_nil_of_length_eq_zero (Nat.le_zero.mp hlen)
    simp [this, chunkGo]
  | succ n ih =>
    intro l hlen
    by_cases hempty : l.isEmpty
    · have : l = [] := List.isEmpty_iff.mp hempty
      simp [chunkGo, hempty, this]
    · have hne : l ≠ [] := by simpa [List.isEmpty_iff] using hempty
      have hpos : 1 ≤ l.length := by
        cases l with
        | nil => simp at hne
        | cons a as => simp
      have hfuel : (l.drop 100).length ≤ n := by
        simp only [List.length_drop]
        omega
      have hrec := ih _ hfuel
      simp only [chunkGo, hempty, if_false, Bool.false_eq_true, List.length_cons, hrec,
        List.length_drop]
      omega

lemma chunkGo_chunk_length (chunkSize : Nat) :
    ∀ fuel (l : List α) c, c ∈ chunkGo chunkSize fuel l → c.length ≤ chunkSize := by
  intro fuel
  induction fuel with
  | zero => intro l c hc; simp [chunkGo] at hc
  | succ n ih =>
    intro l c hc
    by_cases hempty : l.isEmpty
    · simp [chunkGo, hempty] at hc
    · have hc' : c = l.take chunkSize ∨ c ∈ chunkGo chunkSize n (l.drop chunkSize) := by
        simpa [chunkGo, hempty] using hc
      rcases hc' with hc' | hc'
      · subst hc'
        simp only [List.length_take]
        omega
      · exact ih _ _ hc'

lemma appendBatchesGo_submitted (api : Nat → List α → Except String String) :
    ∀ (chunks : List (List α)) (i : Nat),
      (appendBatchesGo api i chunks).2 = List.range' i chunks.length := by
  intro chunks
  induction chunks with
  | nil => intro i; simp [appendBatchesGo, List.range']
  | cons c rest ih =>
    intro i
    cases hapi : api i c with
    | ok r => simp [appendBatchesGo, hapi, ih, List.range'_succ]
    | error e => simp [appendBatchesGo, hapi, ih, List.range'_succ]

lemma appendBatchesGo_errors (api : Nat → List α → Except String String) :
    ∀ (chunks : List (List α)) (i : Nat),
      (appendBatchesGo api i chunks).1.2.1 =
        (List.enumFrom i chunks).filterMap (fun p =>
          match api p.1 p.2 with
          | .error e => some (p.1, e)
          | .ok _ => none) := by
  intro chunks
  induction chunks with
  | nil => intro i; simp [appendBatchesGo]
  | cons c rest ih =>
    intro i
    cases hapi : api i c with
    | ok r => simp [appendBatchesGo, List.enumFrom, hapi, ih]
    | error e => simp [appendBatchesGo, List.enumFrom, hapi, ih]

lemma one_le_findSplitIndex (remaining : List Char) (maxLength : Nat)
    (h : 1 ≤ maxLength) : 1 ≤ findSplitIndex remaining maxLength := by
  unfold findSplitIndex
  cases hf : (((List.range maxLength).drop (maxLength - 100)).reverse.find?
      (isBreakAt remaining)) with
  | none => simpa [hf] using h
  | some i => simp [hf]

lemma findSplitIndex_le (remaining : List Char) (maxLength : Nat) :
    findSplitIndex remaining maxLength ≤ maxLength := by
  unfold findSplitIndex
  cases hf : (((List.range maxLength).drop (maxLength - 100)).reverse.find?
      (isBreakAt remaining)) with
  | none => simp [hf]
  | some i =>
    have hmem : i ∈ ((List.range maxLength).drop (maxLength - 100)).reverse :=
      List.mem_of_find?_eq_some hf
    rw [List.mem_reverse] at hmem
    have hmem' : i ∈ List.range maxLength := List.mem_of_mem_drop hmem
    have hi := List.mem_range.mp hmem'
    simp only [hf]
    omega

lemma splitLoop_flatten (maxLength : Nat) (hm : 1 ≤ maxLength) :
    ∀ fuel remaining, remaining.length ≤ fuel →
      (splitLoop maxLength fuel remaining).flatten = remaining := by
  intro fuel
  induction fuel with
  | zero =>
    intro remaining hlen
    have : remaining = [] := List.eq_nil_of_length_eq_zero (Nat.le_zero.mp hlen)
    simp [this, splitLoop]
  | succ n ih =>
    intro remaining hlen
    by_cases hempty : remaining.isEmpty
    · have : remaining = [] := List.isEmpty_iff.mp hempty
      simp [splitLoop, hempty, this]
    · by_cases hshort : remaining.length ≤ maxLength
      · simp [splitLoop, hempty, hshort]
      · have h1 : 1 ≤ findSplitIndex remaining maxLength :=
          one_le_findSplitIndex remaining maxLength hm
        have hfuel : (remaining.drop (findSplitIndex remaining maxLength)).length ≤ n := by
          simp only [List.length_drop]
          omega
        have hrec := ih _ hfuel
        simp [splitLoop, hempty, hshort, hrec, List.take_append_drop]

lemma splitLoop_chunk_length (maxLength : Nat) :
    ∀ fuel remaining c, c ∈ splitLoop maxLength fuel remaining →
      c.length ≤ maxLength := by
  intro fuel
  induction fuel with
  | zero => intro remaining c hc; simp [splitLoop] at hc
  | succ n ih =>
    intro remaining c hc
    by_cases hempty : remaining.isEmpty
    · simp [splitLoop, hempty] at hc
    · by_cases hshort : remaining.length ≤ maxLength
      · have hc' : c = remaining := by
          simpa [splitLoop, hempty, hshort] using hc
        subst hc'
        exact hshort
      · have hc' : c = remaining.take (findSplitIndex remaining maxLength) ∨
            c ∈ splitLoop maxLength n (remaining.drop (findSplitIndex remaining maxLength)) := by
          simpa [splitLoop, hempty, hshort] using hc
        rcases hc' with hc' | hc'
        · have := findSplitIndex_le remaining maxLength
          subst hc'
          simp only [List.length_take]
          omega
        · exact ih _ _ hc'

/-- C3: for every string `t` and every positive `maxLength`, the chunks
returned by `splitTextIntoChunks` concatenate back to `t` exactly, every
chunk is at most `maxLength` characters long, and a string that already
fits yields the single-element list `[t]`. -/
theorem splitTextIntoChunks_spec (t : List Char) (maxLength : Nat)
    (h : 1 ≤ maxLength) :
    (splitTextIntoChunks t maxLength).flatten = t ∧
    (∀ c ∈ splitTextIntoChunks t maxLength, c.length ≤ maxLength) ∧
    (t.length ≤ maxLength → splitTextIntoChunks t maxLength = [t]) := by
  unfold splitTextIntoChunks
  by_cases hshort : t.length ≤ maxLength
  · refine ⟨by simp [hshort], ?_, by simp [hshort]⟩
    intro c hc
    simp only [hshort, if_true, List.mem_singleton] at hc
    subst hc
    exact hshort
  · refine ⟨?_, ?_, by simp [hshort]⟩
    · simpa [hshort] using splitLoop_flatten maxLength h t.length t (le_refl _)
    · intro c hc
      simp only [hshort, if_false] at hc
      exact splitLoop_chunk_length maxLength t.length t c hc

/-- Witness for `splitTextIntoChunks_spec` at `t = "ab cd"`, `maxLength = 3`. -/
theorem splitTextIntoChunks_spec_witness :
    (splitTextIntoChunks ['a', 'b', ' ', 'c', 'd'] 3).flatten = ['a', 'b', ' ', 'c', 'd'] ∧
    (∀ c ∈ splitTextIntoChunks ['a', 'b', ' ', 'c', 'd'] 3, c.length ≤ 3) ∧
    (['a', 'b', ' ', 'c', 'd'].length ≤ 3 →
      splitTextIntoChunks ['a', 'b', ' ', 'c', 'd'] 3 = [['a', 'b', ' ', 'c', 'd']]) :=
  splitTextIntoChunks_spec ['a', 'b', ' ', 'c', 'd'] 3 (by decide)

/-- C4: for every non-empty block list chunked at size 100, `chunkBlocks`
produces `⌈N/100⌉` chunks whose sizes sum to `N`, each of at most 100
elements, concatenating back to the original list in order; and
`appendBlocksInBatches` reports this chunk count as `batchCount`. -/
theorem chunkBlocks_partition_law (blocks : List NotionBlock) (h : blocks ≠ []) :
    (chunkBlocks blocks 100).length = (blocks.length + 99) / 100 ∧
    (chunkBlocks blocks 100).flatten = blocks ∧
    ((chunkBlocks blocks 100).map List.length).sum = blocks.length ∧
    (∀ c ∈ chunkBlocks blocks 100, c.length ≤ 100) ∧
    (∀ api : Nat → List NotionBlock → Except String String,
      (appendBlocksInBatches api blocks).1.batchCount = (chunkBlocks blocks 100).length) := by
  have hempty : blocks.isEmpty = false := by
    simpa [List.isEmpty_iff] using h
  have hflat : (chunkBlocks blocks 100).flatten = blocks := by
    unfold chunkBlocks
    simp only [hempty, if_false, Bool.false_eq_true]
    exact chunkGo_flatten 100 (by omega) blocks.length blocks (le_refl _)
  refine ⟨?_, hflat, ?_, ?_, ?_⟩
  · unfold chunkBlocks
    simp only [hempty, if_false, Bool.false_eq_true]
    exact chunkGo_length_hundred blocks.length blocks (le_refl _)
  · calc ((chunkBlocks blocks 100).map List.length).sum
        = (chunkBlocks blocks 100).flatten.length := (List.length_flatten _).symm
      _ = blocks.length := by rw [hflat]
  · intro c hc
    unfold chunkBlocks at hc
    simp only [hempty, if_false, Bool.false_eq_true] at hc
    exact chunkGo_chunk_length 100 blocks.length blocks c hc
  · intro api
    unfold appendBlocksInBatches
    simp only [hempty, if_false, Bool.false_eq_true, NOTION_BLOCK_LIMIT]

/-- Witness for `chunkBlocks_partition_law` at a 250-element block list. -/
theorem chunkBlocks_partition_law_witness :
    (chunkBlocks (List.replicate 250 NotionBlock.divider) 100).length =
      ((List.replicate 250 NotionBlock.divider).length + 99) / 100 ∧
    (chunkBlocks (List.replicate 250 NotionBlock.divider) 100).flatten =
      List.replicate 250 NotionBlock.divider ∧
    ((chunkBlocks (List.replicate 250 NotionBlock.divider) 100).map List.length).sum =
      (List.replicate 250 NotionBlock.divider).length ∧
    (∀ c ∈ chunkBlocks (List.replicate 250 NotionBlock.divider) 100, c.length ≤ 100) ∧
    (∀ api : Nat → List NotionBlock → Except String String,
      (appendBlocksInBatches api (List.replicate 250 NotionBlock.divider)).1.batchCount =
        (chunkBlocks (List.replicate 250 NotionBlock.divider) 100).length) :=
  chunkBlocks_partition_law (List.replicate 250 NotionBlock.divider)
    (List.ne_nil_of_length_pos (by rw [List.length_replicate]; omega))

/-- C2: `appendBlocksInBatches` succeeds exactly when no chunk failed; each
failed chunk is recorded as its `(batchIndex, error)` pair while every
chunk — later ones included — is still submitted; and an empty block list
returns an immediate success result with all counts zero. -/
theorem appendBlocksInBatches_error_handling
    (api : Nat → List NotionBlock → Except String String)
    (blocks : List NotionBlock) :
    ((appendBlocksInBatches api blocks).1.success = true ↔
      (appendBlocksInBatches api blocks).1.errors = []) ∧
    (appendBlocksInBatches api blocks).1.errors =
      (List.enumFrom 0 (chunkBlocks blocks NOTION_BLOCK_LIMIT)).filterMap (fun p =>
        match api p.1 p.2 with
        | .error e => some (p.1, e)
        | .ok _ => none) ∧
    (appendBlocksInBatches api blocks).2 =
      List.range (chunkBlocks blocks NOTION_BLOCK_LIMIT).length ∧
    (blocks = [] →
      (appendBlocksInBatches api blocks).1 =
        { success := true, totalBlocks := 0, batchCount := 0, successfulBatches := 0,
          results := [], errors := [] }) := by
  by_cases hempty : blocks.isEmpty
  · have hnil : blocks = [] := List.isEmpty_iff.mp hempty
    subst hnil
    simp [appendBlocksInBatches, chunkBlocks]
  · have herr := appendBatchesGo_errors api (chunkBlocks blocks NOTION_BLOCK_LIMIT) 0
    have hsub := appendBatchesGo_submitted api (chunkBlocks blocks NOTION_BLOCK_LIMIT) 0
    have hnil : ¬blocks = [] := by simpa [List.isEmpty_iff] using hempty
    refine ⟨?_, ?_, ?_, fun hc => absurd hc hnil⟩
    · unfold appendBlocksInBatches
      simp only [hempty, if_false, Bool.false_eq_true]
      constructor
      · intro hs
        exact List.isEmpty_iff.mp (by simpa using hs)
      · intro hs
        simp [hs]
    · unfold appendBlocksInBatches
      simpa only [hempty, if_false, Bool.false_eq_true] using herr
    · unfold appendBlocksInBatches
      simp only [hempty, if_false, Bool.false_eq_true]
      rw [hsub, List.range_eq_range']

/-- Witness for `appendBlocksInBatches_error_handling` at a 250-element
block list with the middle batch failing. -/
theorem appendBlocksInBatches_error_handling_witness :
    (((appendBlocksInBatches (fun i _ => if i = 1 then Except.error "boom" else Except.ok "resp")
        (List.replicate 250 NotionBlock.divider)).1.success = true ↔
      (appendBlocksInBatches (fun i _ => if i = 1 then Except.error "boom" else Except.ok "resp")
        (List.replicate 250 NotionBlock.divider)).1.errors = []) ∧
    (appendBlocksInBatches (fun i _ => if i = 1 then Except.error "boom" else Except.ok "resp")
        (List.replicate 250 NotionBlock.divider)).1.errors =
      (List.enumFrom 0 (chunkBlocks (List.replicate 250 NotionBlock.divider)
          NOTION_BLOCK_LIMIT)).filterMap (fun p =>
        match (if p.1 = 1 then Except.error "boom" else Except.ok "resp" :
            Except String String) with
        | .error e => some (p.1, e)
        | .ok _ => none) ∧
    (appendBlocksInBatches (fun i _ => if i = 1 then Except.error "boom" else Except.ok "resp")
        (List.replicate 250 NotionBlock.divider)).2 =
      List.range (chunkBlocks (List.replicate 250 NotionBlock.divider)
        NOTION_BLOCK_LIMIT).length ∧
    (List.replicate 250 NotionBlock.divider = [] →
      (appendBlocksInBatches (fun i _ => if i = 1 then Except.error "boom" else Except.ok "resp")
          (List.replicate 250 NotionBlock.divider)).1 =
        { success := true, totalBlocks := 0, batchCount := 0, successfulBatches := 0,
          results := [], errors := [] })) :=
  appendBlocksInBatches_error_handling
    (fun i _ => if i = 1 then Except.error "boom" else Except.ok "resp")
    (List.replicate 250 NotionBlock.divider)

/-- C1: whenever the batched append of the converted blocks reports
failure, `rewritePage` returns an error result and issues no delete call at
all — the previously captured child id list is never passed to the delete
step. -/
theorem rewritePage_append_first (api : RemoteApi) (pageId markdown : String)
    (tokens : List Token) (validate : Bool) (w₀ : List String)
    (h : (appendBlocksInBatches api.append
        (markdownToBlocks markdown tokens w₀).1).1.success = false) :
    (rewritePage api pageId markdown tokens validate w₀).1.isError = true ∧
    (rewritePage api pageId markdown tokens validate w₀).2 = [] := by
  unfold rewritePage
  rcases hm : markdownToBlocks markdown tokens w₀ with ⟨blocks, wstate⟩
  rw [hm] at h
  by_cases hb : blocks.isEmpty
  · simp [hb]
  · rcases ha : appendBlocksInBatches api.append blocks with ⟨br, sub⟩
    rw [ha] at h
    simp only at h
    simp [hb, ha, h]

/-- Witness for `rewritePage_append_first`: a remote API whose append call
always fails, one divider block to write, one pre-existing child id. -/
theorem rewritePage_append_first_witness :
    (appendBlocksInBatches
        ((⟨fun _ _ => Except.error "fail", fun _ => ["old1"],
          fun _ => Except.ok ()⟩ : RemoteApi).append)
        (markdownToBlocks "x" [Token.hr] ["w"]).1).1.success = false ∧
    (rewritePage (⟨fun _ _ => Except.error "fail", fun _ => ["old1"],
        fun _ => Except.ok ()⟩ : RemoteApi)
        "p" "x" [Token.hr] true ["w"]).1.isError = true ∧
    (rewritePage (⟨fun _ _ => Except.error "fail", fun _ => ["old1"],
        fun _ => Except.ok ()⟩ : RemoteApi)
        "p" "x" [Token.hr] true ["w"]).2 = [] := by
  have hfail : (appendBlocksInBatches
      ((⟨fun _ _ => Except.error "fail", fun _ => ["old1"],
        fun _ => Except.ok ()⟩ : RemoteApi).append)
      (markdownToBlocks "x" [Token.hr] ["w"]).1).1.success = false := by
    simp [markdownToBlocks, processTokens, processToken]
    decide
  have hmain := rewritePage_append_first
    (⟨fun _ _ => Except.error "fail", fun _ => ["old1"],
      fun _ => Except.ok ()⟩ : RemoteApi)
    "p" "x" [Token.hr] true ["w"] hfail
  exact ⟨hfail, hmain.1, hmain.2⟩

/-- C10: with `validateBeforeDelete = false` no child ids are captured, so
`rewritePage` never issues a delete call and always reports a deleted count
of zero — old content is left untouched even when the append succeeds. -/
theorem rewritePage_no_validate_never_deletes (api : RemoteApi)
    (pageId markdown : String) (tokens : List Token) (w₀ : List String) :
    (rewritePage api pageId markdown tokens false w₀).2 = [] ∧
    (rewritePage api pageId markdown tokens false w₀).1.deletedCount = 0 := by
  unfold rewritePage
  rcases hm : markdownToBlocks markdown tokens w₀ with ⟨blocks, wstate⟩
  by_cases hb : blocks.isEmpty
  · simp [hb]
  · rcases ha : appendBlocksInBatches api.append blocks with ⟨br, sub⟩
    by_cases hs : br.success = true
    · simp [hb, ha, hs]
    · have hs' : br.success = false := by
        cases hbr : br.success with
        | true => exact absurd hbr hs
        | false => rfl
      simp [hb, ha, hs']

/-- C5: a non-task list item at depth ≥ 3 containing a nested list does not
attach it as children: the depth warning is recorded, the nested items are
built at the same depth, and those blocks follow the item's own block
immediately as siblings in the parent's output — no nested content is
dropped. -/
theorem nestedList_flattened_to_siblings (checked : Option Bool) (text : String)
    (ts : List Token) (ordered : Bool) (depth : Nat) (txt : String)
    (nOrd : Bool) (nItems : List ListItem)
    (hdepth : MAX_NESTING_DEPTH ≤ depth)
    (hx : extractGo "" none ts = (txt, some (nOrd, nItems))) :
    processListItem (ListItem.mk false checked text (some ts)) ordered depth =
      (createListItemBlock ordered txt none,
        (processListItems nItems nOrd depth).1,
        depthExceededWarning depth :: (processListItems nItems nOrd depth).2) ∧
    ∀ rest, (processListItems (ListItem.mk false checked text (some ts) :: rest)
        ordered depth).1 =
      createListItemBlock ordered txt none ::
        ((processListItems nItems nOrd depth).1 ++
          (processListItems rest ordered depth).1) := by
  have hlt : ¬(depth < MAX_NESTING_DEPTH) := not_lt.mpr hdepth
  rcases hp : processListItems nItems nOrd depth with ⟨flat, ws⟩
  have hstep : processListItem (ListItem.mk false checked text (some ts)) ordered depth =
      (createListItemBlock ordered txt none, flat, depthExceededWarning depth :: ws) := by
    rw [processListItem.eq_1]
    simp only [Bool.false_eq_true, if_false]
    split
    · rename_i textContent nOrd' nItems' heq
      rw [hx] at heq
      simp only [Prod.mk.injEq, Option.some.injEq] at heq
      obtain ⟨he1, he2, he3⟩ := heq
      subst he1
      subst he2
      subst he3
      rw [if_neg hlt, hp]
    · rename_i textContent heq
      rw [hx] at heq
      simp at heq
  constructor
  · simp [hstep, hp]
  · intro rest
    rcases hr : processListItems rest ordered depth with ⟨rbs, rws⟩
    simp [processListItems, hstep, hp, hr]

/-- Witness for `nestedList_flattened_to_siblings` at depth 3 with a
one-item nested list. -/
theorem nestedList_flattened_to_siblings_witness :
    MAX_NESTING_DEPTH ≤ 3 ∧
    extractGo "" none [Token.list false [ListItem.mk false none "x" none]] =
      ("", some (false, [ListItem.mk false none "x" none])) ∧
    processListItem (ListItem.mk false none "t"
        (some [Token.list false [ListItem.mk false none "x" none]])) false 3 =
      (createListItemBlock false "" none,
        (processListItems [ListItem.mk false none "x" none] false 3).1,
        depthExceededWarning 3 ::
          (processListItems [ListItem.mk false none "x" none] false 3).2) ∧
    (processListItems (ListItem.mk false none "t"
        (some [Token.list false [ListItem.mk false none "x" none]]) :: []) false 3).1 =
      createListItemBlock false "" none ::
        ((processListItems [ListItem.mk false none "x" none] false 3).1 ++
          (processListItems ([] : List ListItem) false 3).1) := by
  have h := nestedList_flattened_to_siblings none "t"
    [Token.list false [ListItem.mk false none "x" none]] false 3 ""
    false [ListItem.mk false none "x" none] (by decide) rfl
  exact ⟨by decide, rfl, h.1, h.2 []⟩

/-- C6 (amended): a task/checklist list item becomes a to_do block with no
children field, and any nested list sub-token is not processed at all — no
sibling blocks and no warnings are produced for it. -/
theorem taskListItem_ignores_nested_list (checked : Option Bool) (text : String)
    (tokens : Option (List Token)) (ordered : Bool) (depth : Nat) :
    processListItem (ListItem.mk true checked text tokens) ordered depth =
      (createToDoBlock text (checked.getD false), [], []) := by
  rw [processListItem.eq_def]
  rfl

/-- C6 counterexample: a task item holding a nested list produces exactly
one block (the to_do) and an empty flattened-sibling list, although
processing the nested list's items on their own would produce a block —
the nested content does not appear in the output. -/
theorem taskListItem_nested_list_counterexample :
    (processListItems [ListItem.mk true (some false) "t"
        (some [Token.list false [ListItem.mk false none "nested" none]])] false 1).1.length
      = 1 ∧
    (processListItem (ListItem.mk true (some false) "t"
        (some [Token.list false [ListItem.mk false none "nested" none]])) false 1).2.1
      = [] ∧
    (processListItems [ListItem.mk false none "nested" none] false 1).1.length = 1 := by
  refine ⟨?_, ?_, ?_⟩ <;>
    simp [processListItems, processListItem.eq_def]

lemma paraGo_no_images (toks : List InlineTok) :
    ∀ parts, (∀ tk ∈ toks, tk.isImage = false) →
      paraGo toks parts =
        (if jsTrim (joinParts (parts ++ toks.map inlineRawText)) = "" then []
         else [createParagraphBlock
            (jsTrim (joinParts (parts ++ toks.map inlineRawText)))]) := by
  induction toks with
  | nil =>
    intro parts _
    by_cases ht : jsTrim (joinParts parts) = "" <;> simp [paraGo, ht]
  | cons tk rest ih =>
    intro parts h
    cases tk with
    | image href itext ititle =>
      have := h _ (List.mem_cons_self _ _)
      simp [InlineTok.isImage] at this
    | inline raw text =>
      have hrest : ∀ tk ∈ rest, tk.isImage = false :=
        fun tk htk => h tk (List.mem_cons_of_mem _ htk)
      simpa [paraGo, inlineRawText, List.append_assoc]
        using ih (parts ++ [rawOrText raw text]) hrest

/-- C7 (amended): a paragraph token with no image sub-tokens yields exactly
one paragraph block, and exactly which one is determined: with inline
sub-tokens present, the accumulated raw texts are joined and trimmed — if
that trimmed join is non-empty the block is the paragraph built from it,
otherwise the fallback paragraph built from the token's raw text; with no
inline sub-tokens the single block is always the paragraph built from the
token's raw (untrimmed) text. The count is never zero. -/
theorem processParagraph_no_images_one_block (text : String) (toks : List InlineTok)
    (h : ∀ tk ∈ toks, tk.isImage = false) :
    processParagraph text (some toks) =
      (if jsTrim (joinParts (toks.map inlineRawText)) = "" then
        [createParagraphBlock text]
       else
        [createParagraphBlock (jsTrim (joinParts (toks.map inlineRawText)))]) ∧
    processParagraph text none = [createParagraphBlock text] ∧
    (processParagraph text (some toks)).length = 1 ∧
    (processParagraph text none).length = 1 := by
  have hpg := paraGo_no_images toks [] h
  simp only [List.nil_append] at hpg
  have h1 : processParagraph text (some toks) =
      (if jsTrim (joinParts (toks.map inlineRawText)) = "" then
        [createParagraphBlock text]
       else
        [createParagraphBlock (jsTrim (joinParts (toks.map inlineRawText)))]) := by
    unfold processParagraph
    by_cases ht : jsTrim (joinParts (toks.map inlineRawText)) = "" <;> simp [hpg, ht]
  have h2 : processParagraph text none = [createParagraphBlock text] := by
    unfold processParagraph
    by_cases ht : jsTrim text = "" <;> simp [ht]
  refine ⟨h1, h2, ?_, ?_⟩
  · rw [h1]
    by_cases ht : jsTrim (joinParts (toks.map inlineRawText)) = "" <;> simp [ht]
  · rw [h2]
    rfl

/-- Witness for `processParagraph_no_images_one_block` on a plain one-run
paragraph. -/
theorem processParagraph_no_images_one_block_witness :
    (∀ tk ∈ [InlineTok.inline (some "Hello") none], tk.isImage = false) ∧
    (processParagraph "Hello" (some [InlineTok.inline (some "Hello") none]) =
      (if jsTrim (joinParts ([InlineTok.inline (some "Hello") none].map inlineRawText)) = ""
       then [createParagraphBlock "Hello"]
       else [createParagraphBlock
          (jsTrim (joinParts ([InlineTok.inline (some "Hello") none].map inlineRawText)))]) ∧
     processParagraph "Hello" none = [createParagraphBlock "Hello"] ∧
     (processParagraph "Hello" (some [InlineTok.inline (some "Hello") none])).length = 1 ∧
     (processParagraph "Hello" none).length = 1) := by
  have h : ∀ tk ∈ [InlineTok.inline (some "Hello") none], tk.isImage = false := by
    intro tk htk
    simp only [List.mem_singleton] at htk
    subst htk
    rfl
  exact ⟨h, processParagraph_no_images_one_block "Hello"
    [InlineTok.inline (some "Hello") none] h⟩

/-- C7 counterexample: a whitespace-only paragraph (trimmed text empty, no
image sub-tokens) yields one fallback paragraph block holding the raw
text, not zero blocks — in both the inline-tokens and the no-inline-tokens
shape. -/
theorem processParagraph_blank_counterexample :
    jsTrim " " = "" ∧
    processParagraph " " (some [InlineTok.inline (some " ") none]) =
      [createParagraphBlock " "] ∧
    processParagraph " " none = [createParagraphBlock " "] := by
  refine ⟨rfl, rfl, rfl⟩

/-- C8 (amended): `createCodeBlock` passes the content through verbatim as
a single rich_text run and resolves the language tag by lowercasing it and
applying the alias table (js→javascript, ts→typescript, py→python,
rb→ruby, sh/bash/zsh→shell, yml→yaml, md→markdown); an absent or empty tag
resolves to "plain text", while an unrecognized non-empty tag resolves to
its lowercased self, not to "plain text". -/
theorem createCodeBlock_resolution (code : String) (lang : String) :
    codeRichText (createCodeBlock code (some lang)) = some [⟨code⟩] ∧
    codeRichText (createCodeBlock code none) = some [⟨code⟩] ∧
    blockLanguage (createCodeBlock code (some "js")) = some "javascript" ∧
    blockLanguage (createCodeBlock code (some "ts")) = some "typescript" ∧
    blockLanguage (createCodeBlock code (some "py")) = some "python" ∧
    blockLanguage (createCodeBlock code (some "rb")) = some "ruby" ∧
    blockLanguage (createCodeBlock code (some "sh")) = some "shell" ∧
    blockLanguage (createCodeBlock code (some "bash")) = some "shell" ∧
    blockLanguage (createCodeBlock code (some "zsh")) = some "shell" ∧
    blockLanguage (createCodeBlock code (some "yml")) = some "yaml" ∧
    blockLanguage (createCodeBlock code (some "md")) = some "markdown" ∧
    blockLanguage (createCodeBlock code none) = some "plain text" ∧
    blockLanguage (createCodeBlock code (some "")) = some "plain text" ∧
    (languageMap (jsToLower lang) = none → jsToLower lang ≠ "" →
      blockLanguage (createCodeBlock code (some lang)) = some (jsToLower lang)) := by
  refine ⟨rfl, rfl, rfl, rfl, rfl, rfl, rfl, rfl, rfl, rfl, rfl, rfl, rfl, ?_⟩
  intro h1 h2
  simp [createCodeBlock, blockLanguage, h1, h2]

/-- Witness for `createCodeBlock_resolution` at the unrecognized tag
`"rust"`. -/
theorem createCodeBlock_resolution_witness :
    languageMap (jsToLower "rust") = none ∧ jsToLower "rust" ≠ "" ∧
    blockLanguage (createCodeBlock "x" (some "rust")) = some (jsToLower "rust") := by
  have h1 : languageMap (jsToLower "rust") = none := rfl
  have h2 : jsToLower "rust" ≠ "" := by decide
  exact ⟨h1, h2, (createCodeBlock_resolution "x" "rust").2.2.2.2.2.2.2.2.2.2.2.2.2 h1 h2⟩

/-- C8 counterexample: the unrecognized tag `"rust"` resolves to `"rust"`
itself, not to `"plain text"` as the claim states. -/
theorem createCodeBlock_unrecognized_counterexample :
    blockLanguage (createCodeBlock "x" (some "rust")) = some "rust" ∧
    ("rust" : String) ≠ "plain text" := by
  exact ⟨rfl, by decide⟩

/-- C9 (amended): for every input whose trimmed text is non-empty,
`markdownToBlocks` resets the warnings buffer at its start, so the state
read back afterwards is exactly the warnings of that walk, independent of
the buffer's previous content; blank or whitespace-only input returns
before the reset and leaves the previous buffer in place. -/
theorem markdownToBlocks_resets_warnings (markdown : String) (tokens : List Token)
    (w₀ : List String) (h : jsTrim markdown ≠ "") :
    markdownToBlocks markdown tokens w₀ = processTokens tokens ∧
    getConversionWarnings (markdownToBlocks markdown tokens w₀).2 =
      (processTokens tokens).2 := by
  constructor <;> simp [markdownToBlocks, getConversionWarnings, h]

/-- Witness for `markdownToBlocks_resets_warnings` on a one-token document
converted with a stale warning in the buffer. -/
theorem markdownToBlocks_resets_warnings_witness :
    jsTrim "x" ≠ "" ∧
    markdownToBlocks "x" [Token.other "table"] ["stale"] =
      processTokens [Token.other "table"] ∧
    getConversionWarnings (markdownToBlocks "x" [Token.other "table"] ["stale"]).2 =
      (processTokens [Token.other "table"]).2 := by
  have h : jsTrim "x" ≠ "" := by decide
  exact ⟨h, markdownToBlocks_resets_warnings "x" [Token.other "table"] ["stale"] h⟩

/-- C9 counterexample: a blank call returns before the warnings reset, so
the buffer read back afterwards still holds the previous call's warnings
instead of the (empty) warnings of the most recent call. -/
theorem markdownToBlocks_blank_keeps_stale_warnings :
    getConversionWarnings (markdownToBlocks "" [] ["stale"]).2 = ["stale"] ∧
    (["stale"] : List String) ≠ [] := by
  exact ⟨rfl, by decide⟩

end NotionMcp
